import Mathlib

/-!
Verification of the read-for-me frontend pipeline (`frontend/app/page.tsx`,
`frontend/lib/api.ts`, `frontend/components/welcome-input.tsx`) and of the
speech-synthesis merge contract.

JavaScript strings are embedded as `List Char`; the handful of JS string
operations the source uses (`split`, `trim`, `startsWith`, `slice`, regex
matching against the concrete patterns appearing in the source) are given
executable char-level definitions that mirror the leftmost, non-overlapping
semantics of the JS originals.  External browser builtins (`JSON.parse`,
`new URL`, `TextDecoder`) are collaborators, not code of this repository:
they are passed in as function parameters, so every theorem quantifies over
their behaviour.
-/

namespace ReadForMe

/-- Replace the head of a list of lists, leaving the tail untouched.  Used to
prepend an unconsumed character to the first piece produced by a splitter. -/
def mapHd (f : List Char → List Char) : List (List Char) → List (List Char)
  | [] => []
  | h :: t => f h :: t

/-- Last piece of a split (the element JS `events.pop()` removes), with `[]`
for the impossible empty case. -/
def lastD : List (List Char) → List Char
  | [] => []
  | [a] => a
  | _ :: b :: t => lastD (b :: t)

/-- Join pieces back together with a separator in between consecutive pieces
(and nowhere else); the inverse of the splitters below. -/
def joinSep (s : List Char) : List (List Char) → List Char
  | [] => []
  | [a] => a
  | a :: b :: t => a ++ s ++ joinSep s (b :: t)

/-- The two-character SSE event delimiter used by the stream readers in
`lib/api.ts` (`buffer.split("\n\n")`). -/
def nnSep : List Char := ['\n', '\n']

/-- Embedding of JS `buffer.split("\n\n")`: leftmost, non-overlapping
occurrences of the two-newline delimiter split the buffer into pieces. -/
def splitNN : List Char → List (List Char)
  | [] => [[]]
  | [c] => [[c]]
  | c :: d :: rest =>
    if c = '\n' ∧ d = '\n' then [] :: splitNN rest
    else mapHd (fun h => c :: h) (splitNN (d :: rest))

/-- Embedding of JS `text.split("\n")` (single-newline split, used for the
per-block line scan and for the bullet-point parser). -/
def splitN : List Char → List (List Char)
  | [] => [[]]
  | c :: rest =>
    if c = '\n' then [] :: splitN rest
    else mapHd (fun h => c :: h) (splitN rest)

/-- Embedding of JS `thinkingText.split(/\n\n(?=\*\*)/)` from
`parseLatestThinkBlock` (`app/page.tsx`): split on a two-newline boundary
only when it is immediately followed by `**`; the lookahead keeps the `**`
with the following piece. -/
def splitTB : List Char → List (List Char)
  | [] => [[]]
  | [c] => [[c]]
  | [c, d] => [[c, d]]
  | [c, d, e] => [[c, d, e]]
  | c :: d :: e :: f :: rest =>
    if c = '\n' ∧ d = '\n' ∧ e = '*' ∧ f = '*' then
      [] :: mapHd (fun h => '*' :: '*' :: h) (splitTB rest)
    else mapHd (fun h => c :: h) (splitTB (d :: e :: f :: rest))

/-- Whitespace set for the embedding of JS `String.prototype.trim` and of the
`\s` character class (restricted to the ASCII whitespace the source data can
contain). -/
def isWS (c : Char) : Bool :=
  c = ' ' ∨ c = '\t' ∨ c = '\n' ∨ c = '\r' ∨ c = '\x0b' ∨ c = '\x0c'

/-- Embedding of JS `s.trim()`. -/
def jsTrim (l : List Char) : List Char :=
  ((l.dropWhile isWS).reverse.dropWhile isWS).reverse

/-- JSON values as produced by the browser builtin `JSON.parse` (numbers are
restricted to integers, which covers every payload this client handles). -/
inductive Json where
  | null : Json
  | bool : Bool → Json
  | num : Int → Json
  | str : String → Json
  | arr : List Json → Json
  | obj : List (String × Json) → Json

/-- Property access `j.k` on a parsed JSON value: a field of an object, and
`undefined` (here `none`) on anything else. -/
def Json.getField : Json → String → Option Json
  | .obj kvs, k => (kvs.find? (fun kv => kv.1 = k)).map (fun kv => kv.2)
  | _, _ => none

/-- JS truthiness of a parsed JSON value. -/
def Json.truthy : Json → Bool
  | .null => false
  | .bool b => b
  | .num n => n ≠ 0
  | .str s => s ≠ ""
  | .arr _ => true
  | .obj _ => true

/-- Embedding of the JS expression `parsed.text || ""` used by both stream
readers for `thinking`/`content` events. -/
def textOrEmpty (j : Json) : Json :=
  match j.getField "text" with
  | some v => if v.truthy then v else .str ""
  | none => .str ""

/-- Embedding of the JS expression `parsed.error || "알 수 없는 오류"` used by
both stream readers for `error` events. -/
def errorOrDefault (j : Json) : Json :=
  match j.getField "error" with
  | some v => if v.truthy then v else .str "알 수 없는 오류"
  | none => .str "알 수 없는 오류"

mutual

/-- JS string coercion of a parsed JSON value (`String(v)` / `"" + v`), used
where the page appends an event payload to a text buffer. -/
def jsToStr : Json → List Char
  | .null => "null".data
  | .bool true => "true".data
  | .bool false => "false".data
  | .num n => (toString n).data
  | .str s => s.data
  | .arr l => jsToStrList l
  | .obj _ => "[object Object]".data

/-- JS `Array.prototype.toString`: elements coerced and joined with commas. -/
def jsToStrList : List Json → List Char
  | [] => []
  | [j] => jsToStr j
  | j :: k :: t => jsToStr j ++ [','] ++ jsToStrList (k :: t)

end

/-- The typed events produced by the stream demultiplexers `summarizeStream`
and `generateScriptStream` (`lib/api.ts`): the result of the
`event: ... / data: ...` dispatch after JSON decoding.  `done` carries the
decoded payload unchanged (the source merely type-casts it). -/
inductive StreamEventL where
  | thinking : Json → StreamEventL
  | content : Json → StreamEventL
  | done : Json → StreamEventL
  | error : Json → StreamEventL

/-- A JSON decoder stands in for the browser builtin `JSON.parse`; `none`
models a `SyntaxError` being thrown (caught and swallowed by the source). -/
abbrev JsonParse := List Char → Option Json

/-- The `event: ` line marker scanned by both stream readers. -/
def eventMarker : List Char := "event: ".data

/-- The `data: ` line marker scanned by both stream readers. -/
def dataMarker : List Char := "data: ".data

/-- Line scan of one delimited SSE block, mirroring the inner `for` loop of
`summarizeStream` / `generateScriptStream`: the event type starts as
`"content"`, the data starts empty, and later `event: `/`data: ` lines win. -/
def scanLines (lines : List (List Char)) : List Char × List Char :=
  lines.foldl
    (fun td line =>
      if eventMarker.isPrefixOf line then (line.drop 7, td.2)
      else if dataMarker.isPrefixOf line then (td.1, line.drop 6)
      else td)
    ("content".data, [])

/-- Parse one delimited block into at most one stream event, mirroring the
per-block body of `summarizeStream` / `generateScriptStream`: skip blank
blocks and blocks without data, drop blocks whose payload fails to JSON
decode (the source logs a warning and continues), and dispatch on the event
type. -/
def parseBlock (jp : JsonParse) (block : List Char) : Option StreamEventL :=
  if jsTrim block = [] then none
  else
    let td := scanLines (splitN block)
    if td.2 = [] then none
    else
      match jp td.2 with
      | none => none
      | some parsed =>
        if td.1 = "thinking".data then some (.thinking (textOrEmpty parsed))
        else if td.1 = "content".data then some (.content (textOrEmpty parsed))
        else if td.1 = "done".data then some (.done parsed)
        else if td.1 = "error".data then some (.error (errorOrDefault parsed))
        else none

/-- One iteration of the chunk loop of `summarizeStream` /
`generateScriptStream`: append the chunk to the carry buffer, split on the
blank-line delimiter, keep the (possibly incomplete) last piece as the new
carry, and emit the events parsed from the complete pieces. -/
def sseStep (jp : JsonParse) (st : List Char × List StreamEventL)
    (chunk : List Char) : List Char × List StreamEventL :=
  let parts := splitNN (st.1 ++ chunk)
  (lastD parts, st.2 ++ parts.dropLast.filterMap (parseBlock jp))

/-- The full stream demultiplexer over a finite sequence of decoded chunks:
fold the chunk loop and, at end-of-input, discard whatever is left in the
carry buffer (the source `break`s out of the read loop without flushing). -/
def sseChunks (jp : JsonParse) (chunks : List (List Char)) : List StreamEventL :=
  (chunks.foldl (sseStep jp) ([], [])).2

/-- The same demultiplexer applied to the whole input at once: every piece
before the last delimiter is parsed, the trailing remainder is discarded. -/
def sseWhole (jp : JsonParse) (input : List Char) : List StreamEventL :=
  (splitNN input).dropLast.filterMap (parseBlock jp)

/-- Concatenation of delimiter-terminated blocks: the wire format assumed by
the §8 counting property (each block followed by the blank-line delimiter). -/
def joinDelim (blocks : List (List Char)) : List Char :=
  (blocks.map (fun b => b ++ nnSep)).flatten

/-- A block is cleanly delimited when it contains no blank-line delimiter of
its own and does not end in a newline (so that the following delimiter is
recognised exactly where it was written). -/
def cleanBlock (b : List Char) : Prop :=
  splitNN b = [b] ∧ b.getLast? ≠ some '\n'

instance cleanBlockDecidable (b : List Char) : Decidable (cleanBlock b) :=
  inferInstanceAs (Decidable (splitNN b = [b] ∧ b.getLast? ≠ some '\n'))

theorem mapHd_ne_nil (f : List Char → List Char) {l : List (List Char)}
    (h : l ≠ []) : mapHd f l ≠ [] := by
  cases l with
  | nil => exact absurd rfl h
  | cons a t => simp [mapHd]

theorem splitNN_ne_nil (l : List Char) : splitNN l ≠ [] := by
  induction l using splitNN.induct with
  | case1 => simp [splitNN]
  | case2 c => simp [splitNN]
  | case3 c d rest hcd ih => simp [splitNN, hcd]
  | case4 c d rest hcd ih =>
    rw [splitNN, if_neg hcd]
    exact mapHd_ne_nil _ ih

theorem joinSep_cons (s a : List Char) {t : List (List Char)} (h : t ≠ []) :
    joinSep s (a :: t) = a ++ s ++ joinSep s t := by
  cases t with
  | nil => exact absurd rfl h
  | cons b t' => rfl

theorem joinSep_mapHd_cons (s : List Char) (c : Char) {l : List (List Char)}
    (h : l ≠ []) : joinSep s (mapHd (fun x => c :: x) l) = c :: joinSep s l := by
  cases l with
  | nil => exact absurd rfl h
  | cons a t =>
    cases t with
    | nil => rfl
    | cons b t' => rfl

theorem splitNN_join (l : List Char) : joinSep nnSep (splitNN l) = l := by
  induction l using splitNN.induct with
  | case1 => rfl
  | case2 c => rfl
  | case3 c d rest hcd ih =>
    rw [splitNN, if_pos hcd, joinSep_cons _ _ (splitNN_ne_nil rest), ih]
    obtain ⟨hc, hd⟩ := hcd
    subst hc; subst hd; rfl
  | case4 c d rest hcd ih =>
    rw [splitNN, if_neg hcd,
      joinSep_mapHd_cons _ _ (splitNN_ne_nil (d :: rest)), ih]

theorem splitNN_eq_singleton {l x : List Char} (h : splitNN l = [x]) : x = l := by
  have := splitNN_join l
  rw [h] at this
  exact this

theorem splitNN_cons_of_ne (c : Char) (l : List Char)
    (h : ¬(c = '\n' ∧ l.head? = some '\n')) :
    splitNN (c :: l) = mapHd (fun x => c :: x) (splitNN l) := by
  cases l with
  | nil => rfl
  | cons d rest =>
    rw [splitNN, if_neg]
    intro ⟨hc, hd⟩
    exact h ⟨hc, by simp [hd]⟩

theorem splitNN_append (a b : List Char) :
    splitNN (a ++ b) =
      (splitNN a).dropLast ++ splitNN (lastD (splitNN a) ++ b) := by
  induction a using splitNN.induct with
  | case1 => simp [splitNN, lastD]
  | case2 c => simp [splitNN, lastD]
  | case3 c d rest hcd ih =>
    have hLne := splitNN_ne_nil rest
    rw [List.cons_append, List.cons_append, splitNN, if_pos hcd,
      splitNN, if_pos hcd, ih]
    cases hL : splitNN rest with
    | nil => exact absurd hL hLne
    | cons h t =>
      cases t with
      | nil => simp [lastD, List.dropLast]
      | cons h2 t2 => simp [lastD, List.dropLast]
  | case4 c d rest hcd ih =>
    have hLne := splitNN_ne_nil (d :: rest)
    rw [List.cons_append, List.cons_append, splitNN, if_neg hcd,
      splitNN, if_neg hcd, ← List.cons_append, ih]
    cases hL : splitNN (d :: rest) with
    | nil => exact absurd hL hLne
    | cons h t =>
      cases t with
      | nil =>
        have hhd : h = d :: rest := splitNN_eq_singleton hL
        have hhead : ¬(c = '\n' ∧ (h ++ b).head? = some '\n') := by
          intro ⟨hc, hb⟩
          subst hhd
          simp at hb
          exact hcd ⟨hc, hb⟩
        show mapHd (fun x => c :: x) (splitNN (h ++ b)) = splitNN (c :: (h ++ b))
        rw [splitNN_cons_of_ne c (h ++ b) hhead]
      | cons h2 t2 =>
        simp [mapHd, lastD, List.dropLast]

theorem dropLast_append_lastD :
    ∀ {L : List (List Char)}, L ≠ [] → L.dropLast ++ [lastD L] = L
  | [], h => absurd rfl h
  | [a], _ => rfl
  | a :: b :: t, _ => by
    rw [show lastD (a :: b :: t) = lastD (b :: t) from rfl,
      show (a :: b :: t).dropLast = a :: (b :: t).dropLast from rfl]
    simpa using dropLast_append_lastD (L := b :: t) (by simp)

theorem lastD_append {Y : List (List Char)} (X : List (List Char))
    (h : Y ≠ []) : lastD (X ++ Y) = lastD Y := by
  induction X with
  | nil => rfl
  | cons a X ih =>
    cases hXY : X ++ Y with
    | nil => exact absurd (List.append_eq_nil.mp hXY).2 h
    | cons z zs => rw [List.cons_append, hXY, show lastD (a :: z :: zs) = lastD (z :: zs) from rfl, ← hXY, ih]

theorem dropLast_append_left {Y : List (List Char)} (X : List (List Char))
    (h : Y ≠ []) : (X ++ Y).dropLast = X ++ Y.dropLast := by
  induction X with
  | nil => rfl
  | cons a X ih =>
    cases hXY : X ++ Y with
    | nil => exact absurd (List.append_eq_nil.mp hXY).2 h
    | cons z zs =>
      rw [List.cons_append, hXY, show (a :: z :: zs).dropLast = a :: (z :: zs).dropLast from rfl,
        ← hXY, ih]
      rfl

/-- The carry buffer kept by the chunk loop never itself contains a
delimiter: splitting it again returns it unchanged. -/
theorem splitNN_lastD_stable (l : List Char) :
    splitNN (lastD (splitNN l)) = [lastD (splitNN l)] := by
  have h := splitNN_append l []
  simp only [List.append_nil] at h
  have hd : (splitNN l).dropLast ++ [lastD (splitNN l)] = splitNN l :=
    dropLast_append_lastD (splitNN_ne_nil l)
  exact List.append_cancel_left (h.symm.trans hd.symm)

/-- Invariant of the chunk loop of `summarizeStream` / `generateScriptStream`:
starting from a delimiter-free carry, folding over any list of chunks emits
exactly the events of the concatenated input, and carries its trailing
remainder. -/
theorem sseFold (jp : JsonParse) (chunks : List (List Char)) :
    ∀ buf evs, splitNN buf = [buf] →
      chunks.foldl (sseStep jp) (buf, evs) =
        (lastD (splitNN (buf ++ chunks.flatten)),
         evs ++ (splitNN (buf ++ chunks.flatten)).dropLast.filterMap (parseBlock jp)) := by
  induction chunks with
  | nil =>
    intro buf evs hbuf
    simp [hbuf, lastD, List.dropLast]
  | cons c cs ih =>
    intro buf evs hbuf
    rw [List.foldl_cons]
    have hstep : sseStep jp (buf, evs) c =
        (lastD (splitNN (buf ++ c)),
         evs ++ (splitNN (buf ++ c)).dropLast.filterMap (parseBlock jp)) := rfl
    rw [hstep, ih _ _ (splitNN_lastD_stable (buf ++ c))]
    have happ := splitNN_append (buf ++ c) cs.flatten
    have hne := splitNN_ne_nil (lastD (splitNN (buf ++ c)) ++ cs.flatten)
    rw [List.flatten_cons, ← List.append_assoc, happ,
      lastD_append _ hne, dropLast_append_left _ hne,
      List.filterMap_append, List.append_assoc]

/-- Chunk-boundary invariance: the demultiplexer's output depends only on the
concatenation of the chunks, never on where the chunk boundaries fall. -/
theorem sseChunks_eq_sseWhole (jp : JsonParse) (chunks : List (List Char)) :
    sseChunks jp chunks = sseWhole jp chunks.flatten := by
  unfold sseChunks sseWhole
  rw [sseFold jp chunks [] [] rfl]
  simp

theorem splitNN_clean_cons {b : List Char} (t : List Char)
    (h1 : splitNN b = [b]) (h2 : b.getLast? ≠ some '\n') :
    splitNN (b ++ '\n' :: '\n' :: t) = b :: splitNN t := by
  induction b using splitNN.induct with
  | case1 => rw [List.nil_append, splitNN, if_pos ⟨rfl, rfl⟩]
  | case2 c =>
    have hc : ¬(c = '\n') := by
      intro hc
      exact h2 (by simp [hc])
    rw [List.cons_append, List.nil_append, splitNN,
      if_neg (fun hh => hc hh.1), splitNN, if_pos ⟨rfl, rfl⟩, mapHd]
  | case3 c d rest hcd ih =>
    rw [splitNN, if_pos hcd] at h1
    exact absurd (List.cons.injEq _ _ _ _ ▸ h1) (by simp [splitNN_ne_nil rest])
  | case4 c d rest hcd ih =>
    rw [splitNN, if_neg hcd] at h1
    have hL : splitNN (d :: rest) = [d :: rest] := by
      cases hsp : splitNN (d :: rest) with
      | nil => exact absurd hsp (splitNN_ne_nil _)
      | cons x xs =>
        rw [hsp, mapHd] at h1
        have hx := (List.cons.injEq _ _ _ _).mp h1
        have hxs : xs = [] := hx.2
        have hcx : c :: x = c :: d :: rest := hx.1
        subst hxs
        have : x = d :: rest := splitNN_eq_singleton (by rw [hsp, (List.cons.injEq _ _ _ _).mp hcx |>.2])
        rw [this]
    have h2' : (d :: rest).getLast? ≠ some '\n' := by
      rwa [List.getLast?_cons_cons] at h2
    rw [List.cons_append, splitNN_cons_of_ne, ih hL h2', mapHd]
    intro ⟨hc, hd⟩
    simp at hd
    exact hcd ⟨hc, hd⟩

/-- Splitting a sequence of cleanly delimiter-terminated blocks recovers the
blocks, followed by the empty trailing remainder. -/
theorem splitNN_joinDelim {blocks : List (List Char)}
    (h : ∀ b ∈ blocks, cleanBlock b) :
    splitNN (joinDelim blocks) = blocks ++ [[]] := by
  induction blocks with
  | nil => rfl
  | cons b bs ih =>
    have hb := h b (by simp)
    have hjd : joinDelim (b :: bs) = b ++ '\n' :: '\n' :: joinDelim bs := by
      show ((b ++ nnSep) :: bs.map (fun x => x ++ nnSep)).flatten = _
      rw [List.flatten_cons, List.append_assoc]
      rfl
    rw [hjd, splitNN_clean_cons _ hb.1 hb.2,
      ih (fun x hx => h x (by simp [hx])), List.cons_append]

theorem filterMap_length_all_isSome {α β : Type} :
    ∀ (l : List α) (f : α → Option β), (∀ a ∈ l, (f a).isSome) →
      (l.filterMap f).length = l.length
  | [], _, _ => rfl
  | a :: t, f, h => by
    cases hfa : f a with
    | none => exact absurd (hfa ▸ h a (by simp)) (by simp)
    | some b =>
      rw [List.filterMap_cons, hfa, List.length_cons,
        filterMap_length_all_isSome t f (fun x hx => h x (by simp [hx]))]
      rfl

/-- Concrete stand-in for the external `JSON.parse` collaborator, used only
by the concrete-input theorems below: it decodes the payload `p1` to the
empty object and `p2` to an object with a `text` field, and fails on
everything else. -/
def jpTest : JsonParse := fun s =>
  if s = "p1".data then some (Json.obj [])
  else if s = "p2".data then some (Json.obj [("text", Json.str "hi")])
  else none

/-- C3 (amended): for every finite sequence of chunks whose concatenation is
a sequence of valid, delimiter-terminated event blocks — the trailing
`complete` block included — `summarizeStream` / `generateScriptStream` yield
exactly one `StreamEvent` per block, in block order, regardless of where the
chunk boundaries fall inside or between blocks.  (The original claim also
covered a trailing `complete` block not followed by the blank-line delimiter;
the source discards such an unterminated block at end-of-input — see the
counterexample theorem.) -/
theorem c3_demux_one_event_per_delimited_block
    (jp : JsonParse) (chunks blocks : List (List Char))
    (hflat : chunks.flatten = joinDelim blocks)
    (hclean : ∀ b ∈ blocks, cleanBlock b)
    (hsome : ∀ b ∈ blocks, (parseBlock jp b).isSome) :
    sseChunks jp chunks = blocks.filterMap (parseBlock jp) ∧
    (sseChunks jp chunks).length = blocks.length := by
  have h1 : sseChunks jp chunks = blocks.filterMap (parseBlock jp) := by
    rw [sseChunks_eq_sseWhole, hflat]
    unfold sseWhole
    rw [splitNN_joinDelim hclean, List.dropLast_concat]
  exact ⟨h1, by rw [h1]; exact filterMap_length_all_isSome blocks _ hsome⟩

/-- Witness for C3: a concrete `done` block arriving split across four chunk
boundaries (one of them inside the trailing delimiter) still yields exactly
the one `done` event. -/
theorem c3_demux_one_event_per_delimited_block_witness :
    sseChunks jpTest
      ["event: do".data, "ne".data, "\ndata: p1\n".data, "\n".data] =
      [StreamEventL.done (Json.obj [])] := by
  have h := c3_demux_one_event_per_delimited_block jpTest
    ["event: do".data, "ne".data, "\ndata: p1\n".data, "\n".data]
    ["event: done\ndata: p1".data] (by decide) (by decide) (by decide)
  exact h.1.trans (by rfl)

/-- Counterexample for C3 as stated: when the trailing valid `complete` block
is not followed by the blank-line delimiter before end-of-input, the
demultiplexer yields no event for it (N = 0 delimited blocks plus one valid
trailing `complete` block, yet 0 events instead of the claimed N + 1 = 1):
the block stays in the carry buffer and is discarded when the reader
reports end-of-input. -/
theorem c3_counterexample_unterminated_trailing_block :
    sseChunks jpTest ["event: done\ndata: p1".data] = [] ∧
    parseBlock jpTest ("event: done\ndata: p1".data) =
      some (.done (Json.obj [])) ∧
    cleanBlock ("event: done\ndata: p1".data) :=
  ⟨rfl, rfl, by decide⟩

/-- C8: a delimited block whose payload fails to JSON-decode is dropped with
no event and no exception, and the demultiplexer keeps yielding the events
of the blocks that follow it.  (The source's `console.warn` diagnostic is a
log line with no effect on the event sequence and is not modelled.) -/
theorem c8_undecodable_block_dropped_stream_continues
    (jp : JsonParse) (pre post : List (List Char)) (bad : List Char)
    (hclean : ∀ b ∈ pre ++ bad :: post, cleanBlock b)
    (hbad : parseBlock jp bad = none) :
    sseWhole jp (joinDelim (pre ++ bad :: post)) =
      pre.filterMap (parseBlock jp) ++ post.filterMap (parseBlock jp) := by
  unfold sseWhole
  rw [splitNN_joinDelim hclean, List.dropLast_concat, List.filterMap_append]
  simp [List.filterMap_cons, hbad]

/-- Witness for C8: a concrete stream with an undecodable middle block still
yields the `thinking` event before it and the `done` event after it. -/
theorem c8_undecodable_block_dropped_stream_continues_witness :
    sseWhole jpTest
      (joinDelim ["event: thinking\ndata: p2".data, "data: bad".data,
        "event: done\ndata: p1".data]) =
      [StreamEventL.thinking (Json.str "hi"), StreamEventL.done (Json.obj [])] := by
  have h := c8_undecodable_block_dropped_stream_continues jpTest
    ["event: thinking\ndata: p2".data] ["event: done\ndata: p1".data]
    ("data: bad".data) (by decide) rfl
  exact h.trans (by rfl)

/-- Characters the JS `.` metacharacter matches: anything but a line
terminator. -/
def nonTerm (c : Char) : Bool :=
  ¬(c = '\n' ∨ c = '\r' ∨ c = ' ' ∨ c = ' ')

/-- Scanner for the lazy group of `/^\*\*(.+?)\*\*/` after its first
character has been consumed: close at the earliest `**`, keep extending the
(reversed) accumulator through non-terminator characters, fail otherwise. -/
def titleGo (acc : List Char) : List Char → Option (List Char × List Char)
  | [] => none
  | [_] => none
  | x :: y :: rest =>
    if x = '*' ∧ y = '*' then some (acc.reverse, rest)
    else if nonTerm x then titleGo (x :: acc) (y :: rest)
    else none

/-- Match `(.+?)\*\*` against the text following the opening `**`: at least
one non-terminator character, then the earliest closing `**`.  Returns the
captured title together with the text after the closing marker. -/
def titleScan : List Char → Option (List Char × List Char)
  | [] => none
  | c :: rest => if nonTerm c then titleGo [c] rest else none

/-- Embedding of `lastBlock.match(/^\*\*(.+?)\*\*/)` from
`parseLatestThinkBlock`: the block must open with `**`, then the lazy title
capture applies. -/
def titleMatchOf (block : List Char) : Option (List Char × List Char) :=
  match block with
  | x :: y :: rest => if x = '*' ∧ y = '*' then titleScan rest else none
  | _ => none

/-- Embedding of `parseLatestThinkBlock` (`app/page.tsx`): split the
reasoning buffer on `\n\n(?=\*\*)`, take the last block, read its `**…**`
title if it has one, and strip the title marker plus following newlines from
the block (then `trim`) to obtain the content. -/
def parseLatestThinkBlock (buf : List Char) : List Char × List Char :=
  if buf = [] then ([], [])
  else
    let lastBlock := lastD (splitTB buf)
    match titleMatchOf lastBlock with
    | some (t, rem) => (t, jsTrim (rem.dropWhile (fun c => c = '\n')))
    | none => ([], jsTrim lastBlock)

/-- Bullet markers recognised by `parseStreamingBulletPoints`
(`components/welcome-input.tsx`). -/
def bulletChar (c : Char) : Bool :=
  c = '•' ∨ c = '-' ∨ c = '*'

/-- Embedding of `trimmed.replace(/^[•\-\*]\s*/, "")`: drop one leading
bullet marker and the whitespace run after it. -/
def stripBullet (l : List Char) : List Char :=
  match l with
  | c :: rest => if bulletChar c then rest.dropWhile isWS else l
  | [] => l

/-- The `[요약]` section marker scanned by `parseStreamingBulletPoints`. -/
def summaryMarker : List Char := "[요약]".data

/-- Embedding of `content.match(/\[요약\]\s*\n([\s\S]*?)$/)`: find the first
`[요약]` occurrence followed by a whitespace run containing a newline; the
captured text starts after the last newline of that run. -/
def summaryTail : List Char → Option (List Char)
  | [] => none
  | c :: rest =>
    if summaryMarker.isPrefixOf (c :: rest) then
      let after := (c :: rest).drop 4
      let w := after.takeWhile isWS
      if w.contains '\n' then
        some ((w.reverse.takeWhile (fun x => ¬(x = '\n'))).reverse ++
          after.drop w.length)
      else summaryTail rest
    else summaryTail rest

/-- Embedding of `parseStreamingBulletPoints`
(`components/welcome-input.tsx`): take the text after the `[요약]` marker
(or the whole content when the marker has not appeared), split into lines,
keep the lines starting with a bullet marker, and collect their stripped,
trimmed, non-empty texts in order. -/
def parseStreamingBulletPoints (content : List Char) : List (List Char) :=
  if content = [] then []
  else
    let summaryText := (summaryTail content).getD content
    (splitN summaryText).foldl
      (fun acc line =>
        let t := jsTrim line
        match t with
        | c :: _ =>
          if bulletChar c then
            let point := jsTrim (stripBullet t)
            if point = [] then acc else acc ++ [point]
          else acc
        | [] => acc)
      []

theorem splitTB_ne_nil (l : List Char) : splitTB l ≠ [] := by
  induction l using splitTB.induct with
  | case1 => simp [splitTB]
  | case2 c => simp [splitTB]
  | case3 c d => simp [splitTB]
  | case4 c d e => simp [splitTB]
  | case5 c d e f rest hcd ih => simp [splitTB, hcd]
  | case6 c d e f rest hcd ih =>
    rw [splitTB, if_neg hcd]
    exact mapHd_ne_nil _ ih

theorem joinSep_mapHd_cons2 (s : List Char) (c d : Char)
    {l : List (List Char)} (h : l ≠ []) :
    joinSep s (mapHd (fun x => c :: d :: x) l) = c :: d :: joinSep s l := by
  cases l with
  | nil => exact absurd rfl h
  | cons a t =>
    cases t with
    | nil => rfl
    | cons b t' => rfl

theorem splitTB_join (l : List Char) : joinSep nnSep (splitTB l) = l := by
  induction l using splitTB.induct with
  | case1 => rfl
  | case2 c => rfl
  | case3 c d => rfl
  | case4 c d e => rfl
  | case5 c d e f rest hcd ih =>
    have hM := splitTB_ne_nil rest
    rw [splitTB, if_pos hcd,
      joinSep_cons _ _ (mapHd_ne_nil _ hM),
      joinSep_mapHd_cons2 _ _ _ hM, ih]
    obtain ⟨h1, h2, h3, h4⟩ := hcd
    subst h1; subst h2; subst h3; subst h4; rfl
  | case6 c d e f rest hcd ih =>
    rw [splitTB, if_neg hcd,
      joinSep_mapHd_cons _ _ (splitTB_ne_nil (d :: e :: f :: rest)), ih]

theorem splitTB_eq_singleton {l x : List Char} (h : splitTB l = [x]) : x = l := by
  have := splitTB_join l
  rw [h] at this
  exact this

/-- The four-character boundary pattern test used for the conditional cons
equation of `splitTB`: true exactly when the list starts with the lookahead
part `\n**` of the boundary. -/
def nlStarStar : List Char → Bool
  | d :: e :: f :: _ => d = '\n' ∧ e = '*' ∧ f = '*'
  | _ => false

theorem splitTB_cons_of_ne (c : Char) (l : List Char)
    (h : ¬(c = '\n' ∧ nlStarStar l = true)) :
    splitTB (c :: l) = mapHd (fun x => c :: x) (splitTB l) := by
  match l with
  | [] => rfl
  | [d] => rfl
  | [d, e] => rfl
  | d :: e :: f :: t =>
    rw [splitTB, if_neg]
    intro ⟨h1, h2, h3, h4⟩
    exact h ⟨h1, by simp [nlStarStar, h2, h3, h4]⟩

theorem splitTB_cons_not_nl {c : Char} (l : List Char) (h : ¬(c = '\n')) :
    splitTB (c :: l) = mapHd (fun x => c :: x) (splitTB l) :=
  splitTB_cons_of_ne c l (fun hh => h hh.1)

theorem mapHd_mapHd (f g : List Char → List Char) (l : List (List Char)) :
    mapHd f (mapHd g l) = mapHd (fun x => f (g x)) l := by
  cases l with
  | nil => rfl
  | cons a t => rfl

theorem splitTB_append (a b : List Char) :
    splitTB (a ++ b) =
      (splitTB a).dropLast ++ splitTB (lastD (splitTB a) ++ b) := by
  induction a using splitTB.induct with
  | case1 => simp [splitTB, lastD]
  | case2 c => simp [splitTB, lastD]
  | case3 c d => simp [splitTB, lastD]
  | case4 c d e => simp [splitTB, lastD]
  | case5 c d e f rest hcd ih =>
    have hMne := splitTB_ne_nil rest
    rw [List.cons_append, List.cons_append, List.cons_append, List.cons_append,
      splitTB, if_pos hcd, splitTB, if_pos hcd, ih]
    cases hM : splitTB rest with
    | nil => exact absurd hM hMne
    | cons h t =>
      cases t with
      | nil =>
        have hh : h = rest := splitTB_eq_singleton hM
        show [] :: mapHd (fun x => '*' :: '*' :: x) (splitTB (h ++ b)) =
          [] :: splitTB ('*' :: '*' :: h ++ b)
        rw [List.cons_append, @splitTB_cons_not_nl '*' (('*' :: h) ++ b) (by decide),
          List.cons_append, @splitTB_cons_not_nl '*' (h ++ b) (by decide),
          mapHd_mapHd]
      | cons h2 t2 =>
        simp [mapHd, lastD, List.dropLast]
  | case6 c d e f rest hcd ih =>
    have hMne := splitTB_ne_nil (d :: e :: f :: rest)
    rw [List.cons_append, List.cons_append, List.cons_append, List.cons_append,
      splitTB, if_neg hcd, splitTB, if_neg hcd]
    rw [show d :: e :: f :: (rest ++ b) = (d :: e :: f :: rest) ++ b by simp, ih]
    cases hM : splitTB (d :: e :: f :: rest) with
    | nil => exact absurd hM hMne
    | cons h t =>
      cases t with
      | nil =>
        have hh : h = d :: e :: f :: rest := splitTB_eq_singleton hM
        have hhead : ¬(c = '\n' ∧ nlStarStar (h ++ b) = true) := by
          intro ⟨hc, hb⟩
          subst hh
          simp only [List.cons_append, nlStarStar] at hb
          have : d = '\n' ∧ e = '*' ∧ f = '*' := by
            simpa using hb
          exact hcd ⟨hc, this.1, this.2.1, this.2.2⟩
        show mapHd (fun x => c :: x) (splitTB (h ++ b)) = splitTB (c :: (h ++ b))
        rw [splitTB_cons_of_ne c (h ++ b) hhead]
      | cons h2 t2 =>
        simp [mapHd, lastD, List.dropLast]

theorem titleGo_extend : ∀ (l acc t rem ext : List Char),
    titleGo acc l = some (t, rem) →
    titleGo acc (l ++ ext) = some (t, rem ++ ext)
  | [], _, _, _, _, h => by simp [titleGo] at h
  | [x], _, _, _, _, h => by simp [titleGo] at h
  | x :: y :: rest, acc, t, rem, ext, h => by
    by_cases hxy : x = '*' ∧ y = '*'
    · rw [titleGo, if_pos hxy] at h
      simp only [Option.some.injEq, Prod.mk.injEq] at h
      show titleGo acc (x :: y :: (rest ++ ext)) = some (t, rem ++ ext)
      rw [titleGo, if_pos hxy, h.1, h.2]
    · rw [titleGo, if_neg hxy] at h
      by_cases hx : nonTerm x
      · rw [if_pos hx] at h
        have := titleGo_extend (y :: rest) (x :: acc) t rem ext h
        show titleGo acc (x :: y :: (rest ++ ext)) = some (t, rem ++ ext)
        rw [titleGo, if_neg hxy, if_pos hx]
        exact this
      · rw [if_neg hx] at h
        exact absurd h (by simp)

theorem titleScan_extend {l t rem : List Char} (ext : List Char)
    (h : titleScan l = some (t, rem)) :
    titleScan (l ++ ext) = some (t, rem ++ ext) := by
  cases l with
  | nil => simp [titleScan] at h
  | cons c r' =>
    rw [titleScan] at h
    by_cases hc : nonTerm c
    · rw [if_pos hc] at h
      show titleScan (c :: (r' ++ ext)) = _
      rw [titleScan, if_pos hc]
      exact titleGo_extend r' [c] t rem ext h
    · rw [if_neg hc] at h
      exact absurd h (by simp)

theorem titleMatchOf_extend {block t rem : List Char} (ext : List Char)
    (h : titleMatchOf block = some (t, rem)) :
    titleMatchOf (block ++ ext) = some (t, rem ++ ext) := by
  cases block with
  | nil => simp [titleMatchOf] at h
  | cons x rest0 =>
    cases rest0 with
    | nil => simp [titleMatchOf] at h
    | cons y rest =>
      rw [titleMatchOf] at h
      by_cases hxy : x = '*' ∧ y = '*'
      · rw [if_pos hxy] at h
        show titleMatchOf (x :: y :: (rest ++ ext)) = _
        rw [titleMatchOf, if_pos hxy]
        exact titleScan_extend ext h
      · rw [if_neg hxy] at h
        exact absurd h (by simp)

theorem titleGo_sound : ∀ (l acc t rem : List Char),
    titleGo acc l = some (t, rem) →
    ∃ u, l = u ++ '*' :: '*' :: rem ∧ t = acc.reverse ++ u ∧
      (∀ c ∈ u, nonTerm c = true)
  | [], _, _, _, h => by simp [titleGo] at h
  | [x], _, _, _, h => by simp [titleGo] at h
  | x :: y :: rest, acc, t, rem, h => by
    by_cases hxy : x = '*' ∧ y = '*'
    · rw [titleGo, if_pos hxy] at h
      simp only [Option.some.injEq, Prod.mk.injEq] at h
      exact ⟨[], by simp [hxy.1, hxy.2, h.2], by simp [h.1.symm], by simp⟩
    · rw [titleGo, if_neg hxy] at h
      by_cases hx : nonTerm x
      · rw [if_pos hx] at h
        obtain ⟨u', hu1, hu2, hu3⟩ := titleGo_sound (y :: rest) (x :: acc) t rem h
        refine ⟨x :: u', by rw [List.cons_append, ← hu1], ?_, ?_⟩
        · rw [hu2, List.reverse_cons, List.append_assoc]
          rfl
        · intro c hc
          rcases List.mem_cons.mp hc with hcx | hcu
          · exact hcx ▸ hx
          · exact hu3 c hcu
      · rw [if_neg hx] at h
        exact absurd h (by simp)

theorem titleGo_minimal : ∀ (l acc t rem : List Char),
    titleGo acc l = some (t, rem) →
    ∀ u rem2, l = u ++ '*' :: '*' :: rem2 → (∀ c ∈ u, nonTerm c = true) →
      t.length ≤ acc.length + u.length
  | [], _, _, _, h => by simp [titleGo] at h
  | [x], _, _, _, h => by simp [titleGo] at h
  | x :: y :: rest, acc, t, rem, h => by
    intro u rem2 hdec hnt
    by_cases hxy : x = '*' ∧ y = '*'
    · rw [titleGo, if_pos hxy] at h
      simp only [Option.some.injEq, Prod.mk.injEq] at h
      rw [← h.1, List.length_reverse]
      omega
    · rw [titleGo, if_neg hxy] at h
      by_cases hx : nonTerm x
      · rw [if_pos hx] at h
        cases u with
        | nil =>
          rw [List.nil_append] at hdec
          simp only [List.cons.injEq] at hdec
          exact absurd ⟨hdec.1, hdec.2.1⟩ hxy
        | cons u0 u' =>
          rw [List.cons_append] at hdec
          simp only [List.cons.injEq] at hdec
          have := titleGo_minimal (y :: rest) (x :: acc) t rem h u' rem2
            hdec.2 (fun c hc => hnt c (List.mem_cons_of_mem u0 hc))
          simp only [List.length_cons] at this ⊢
          omega
      · rw [if_neg hx] at h
        exact absurd h (by simp)

theorem titleGo_isSome_of_decomp : ∀ (u acc rem : List Char),
    (∀ c ∈ u, nonTerm c = true) →
    (titleGo acc (u ++ '*' :: '*' :: rem)).isSome
  | [], acc, rem, _ => by
    rw [List.nil_append, titleGo, if_pos ⟨rfl, rfl⟩]
    rfl
  | x :: u', acc, rem, hnt => by
    cases u' with
    | nil =>
      rw [List.cons_append, List.nil_append, titleGo]
      by_cases hxy : x = '*' ∧ '*' = '*'
      · rw [if_pos hxy]; rfl
      · rw [if_neg hxy, if_pos (hnt x (by simp))]
        exact titleGo_isSome_of_decomp [] (x :: acc) rem (by simp)
    | cons u1 u'' =>
      rw [List.cons_append, List.cons_append, titleGo]
      by_cases hxy : x = '*' ∧ u1 = '*'
      · rw [if_pos hxy]; rfl
      · rw [if_neg hxy, if_pos (hnt x (by simp))]
        have := titleGo_isSome_of_decomp (u1 :: u'') (x :: acc) rem
          (fun c hc => hnt c (List.mem_cons_of_mem x hc))
        rw [List.cons_append] at this
        exact this

theorem titleMatchOf_sound {block t rem : List Char}
    (h : titleMatchOf block = some (t, rem)) :
    block = '*' :: '*' :: (t ++ '*' :: '*' :: rem) ∧ t ≠ [] ∧
      (∀ c ∈ t, nonTerm c = true) := by
  cases block with
  | nil => simp [titleMatchOf] at h
  | cons x rest0 =>
    cases rest0 with
    | nil => simp [titleMatchOf] at h
    | cons y rest =>
      rw [titleMatchOf] at h
      by_cases hxy : x = '*' ∧ y = '*'
      · rw [if_pos hxy] at h
        cases rest with
        | nil => simp [titleScan] at h
        | cons c r' =>
          rw [titleScan] at h
          by_cases hc : nonTerm c
          · rw [if_pos hc] at h
            obtain ⟨u, hu1, hu2, hu3⟩ := titleGo_sound r' [c] t rem h
            have ht : t = c :: u := by simpa using hu2
            refine ⟨?_, by simp [ht], ?_⟩
            · rw [hxy.1, hxy.2, ht, List.cons_append, hu1]
            · intro z hz
              rw [ht] at hz
              rcases List.mem_cons.mp hz with hzc | hzu
              · exact hzc ▸ hc
              · exact hu3 z hzu
          · rw [if_neg hc] at h
            exact absurd h (by simp)
      · rw [if_neg hxy] at h
        exact absurd h (by simp)

theorem titleMatchOf_minimal {block t rem : List Char}
    (h : titleMatchOf block = some (t, rem)) :
    ∀ t2 rem2, block = '*' :: '*' :: (t2 ++ '*' :: '*' :: rem2) → t2 ≠ [] →
      (∀ c ∈ t2, nonTerm c = true) → t.length ≤ t2.length := by
  intro t2 rem2 hb ht2 hnt2
  cases block with
  | nil => simp [titleMatchOf] at h
  | cons x rest0 =>
    cases rest0 with
    | nil => simp [titleMatchOf] at h
    | cons y rest =>
      rw [titleMatchOf] at h
      by_cases hxy : x = '*' ∧ y = '*'
      · rw [if_pos hxy] at h
        simp only [List.cons.injEq] at hb
        have hrest : rest = t2 ++ '*' :: '*' :: rem2 := hb.2.2
        cases t2 with
        | nil => exact absurd rfl ht2
        | cons c2 u2 =>
          rw [List.cons_append] at hrest
          cases rest with
          | nil => simp at hrest
          | cons c r' =>
            simp only [List.cons.injEq] at hrest
            rw [titleScan] at h
            by_cases hc : nonTerm c
            · rw [if_pos hc] at h
              have := titleGo_minimal r' [c] t rem h u2 rem2 hrest.2
                (fun z hz => hnt2 z (List.mem_cons_of_mem c2 hz))
              simp only [List.length_cons, List.length_nil] at this ⊢
              omega
            · rw [if_neg hc] at h
              exact absurd h (by simp)
      · rw [if_neg hxy] at h
        exact absurd h (by simp)

theorem titleMatchOf_complete {block t rem : List Char}
    (hb : block = '*' :: '*' :: (t ++ '*' :: '*' :: rem)) (ht : t ≠ [])
    (hnt : ∀ c ∈ t, nonTerm c = true)
    (hmin : ∀ t2 rem2, block = '*' :: '*' :: (t2 ++ '*' :: '*' :: rem2) →
      t2 ≠ [] → (∀ c ∈ t2, nonTerm c = true) → t.length ≤ t2.length) :
    titleMatchOf block = some (t, rem) := by
  cases t with
  | nil => exact absurd rfl ht
  | cons c u =>
    subst hb
    rw [titleMatchOf, if_pos ⟨rfl, rfl⟩, List.cons_append, titleScan,
      if_pos (hnt c (by simp))]
    have hs := titleGo_isSome_of_decomp u [c] rem
      (fun z hz => hnt z (List.mem_cons_of_mem c hz))
    cases hres : titleGo [c] (u ++ '*' :: '*' :: rem) with
    | none => rw [hres] at hs; simp at hs
    | some p =>
      obtain ⟨t', rem'⟩ := p
      obtain ⟨u', hu1, hu2, hu3⟩ := titleGo_sound _ _ _ _ hres
      have ht' : t' = c :: u' := by simpa using hu2
      have hle1 : t'.length ≤ 1 + u.length :=
        titleGo_minimal _ _ _ _ hres u rem rfl
          (fun z hz => hnt z (List.mem_cons_of_mem c hz))
      have hle2 : (c :: u).length ≤ t'.length := by
        refine hmin t' rem' ?_ (by simp [ht']) ?_
        · rw [ht']
          simp only [List.cons_append]
          rw [hu1]
        · intro z hz
          rw [ht'] at hz
          rcases List.mem_cons.mp hz with hzc | hzu
          · exact hzc ▸ hnt c (by simp)
          · exact hu3 z hzu
      have hlen : u'.length = u.length := by
        rw [ht'] at hle1 hle2
        simp only [List.length_cons] at hle1 hle2
        omega
      obtain ⟨hueq, hrem⟩ := List.append_inj hu1.symm (by simp [hlen])
      simp only [List.cons.injEq] at hrem
      rw [ht', hueq, hrem.2.2]

/-- Declarative, spec-side description of a block's heading (§4.2): the block
opens with `**`, then a non-empty title without line terminators, then the
closing `**` and the rest of the block; the title is the shortest such match
(the lazy `.+?` semantics).  This is written from the spec's words, to be
compared with the scanner `titleMatchOf` embedded from the source. -/
def headingDecomp (block t rem : List Char) : Prop :=
  block = '*' :: '*' :: (t ++ '*' :: '*' :: rem) ∧ t ≠ [] ∧
  (∀ c ∈ t, nonTerm c = true) ∧
  (∀ t2 rem2, block = '*' :: '*' :: (t2 ++ '*' :: '*' :: rem2) → t2 ≠ [] →
    (∀ c ∈ t2, nonTerm c = true) → t.length ≤ t2.length)

/-- The source's title scanner and the spec-side heading description agree
exactly. -/
theorem titleMatchOf_iff_headingDecomp (block t rem : List Char) :
    titleMatchOf block = some (t, rem) ↔ headingDecomp block t rem := by
  constructor
  · intro h
    obtain ⟨h1, h2, h3⟩ := titleMatchOf_sound h
    exact ⟨h1, h2, h3, titleMatchOf_minimal h⟩
  · intro ⟨h1, h2, h3, h4⟩
    exact titleMatchOf_complete h1 h2 h3 h4

theorem dropWhile_absorb {p q : Char → Bool}
    (hpq : ∀ c, q c = true → p c = true) :
    ∀ l : List Char, (l.dropWhile q).dropWhile p = l.dropWhile p
  | [] => rfl
  | c :: t => by
    by_cases hq : q c = true
    · rw [List.dropWhile_cons, if_pos hq, List.dropWhile_cons,
        if_pos (hpq c hq), dropWhile_absorb hpq t]
    · rw [List.dropWhile_cons, if_neg hq]

/-- Stripping the run of newlines after the title marker (the `\n*` in the
source's `replace` pattern) is absorbed by the final `trim`. -/
theorem jsTrim_dropWhile_nl (l : List Char) :
    jsTrim (l.dropWhile (fun c => c = '\n')) = jsTrim l := by
  unfold jsTrim
  rw [dropWhile_absorb (by intro c hc; simp at hc; simp [isWS, hc]) l]

/-- The empty-buffer early return of `parseLatestThinkBlock` coincides with
the general path, so the parser always computes the last block's title and
stripped body. -/
theorem parseLatestThinkBlock_eq (buf : List Char) :
    parseLatestThinkBlock buf =
      match titleMatchOf (lastD (splitTB buf)) with
      | some (t, rem) => (t, jsTrim (rem.dropWhile (fun c => c = '\n')))
      | none => ([], jsTrim (lastD (splitTB buf))) := by
  by_cases h : buf = []
  · subst h; rfl
  · unfold parseLatestThinkBlock
    rw [if_neg h]

/-- C7: the incremental sub-parsers `parseLatestThinkBlock` and
`parseStreamingBulletPoints` are pure functions of the buffer, so re-parsing
an unchanged buffer yields an unchanged result with no side effects (the
first two conjuncts; purity is by construction of the embedding, which maps
each parser to a Lean function of the buffer alone); and the parsed heading
is stable under growing the buffer as long as no marker is newly completed
between the two parses: if the extension neither completes a new block
boundary (the block count is unchanged) nor completes a `**…**` heading
marker in the last block (no title match exists in the grown last block
unless one already existed), then the heading parsed from the grown buffer
equals the heading parsed from the original buffer. -/
theorem c7_parsers_pure_and_heading_stable (buf ext : List Char)
    (hext : ext ≠ [])
    (hblocks : (splitTB (buf ++ ext)).length = (splitTB buf).length)
    (hmarker : (titleMatchOf (lastD (splitTB (buf ++ ext)))).isSome →
      (titleMatchOf (lastD (splitTB buf))).isSome) :
    parseLatestThinkBlock buf = parseLatestThinkBlock buf ∧
    parseStreamingBulletPoints buf = parseStreamingBulletPoints buf ∧
    (parseLatestThinkBlock (buf ++ ext)).1 = (parseLatestThinkBlock buf).1 := by
  refine ⟨rfl, rfl, ?_⟩
  have happ := splitTB_append buf ext
  have hpos : 0 < (splitTB buf).length :=
    List.length_pos.mpr (splitTB_ne_nil buf)
  have hlen1 : (splitTB (lastD (splitTB buf) ++ ext)).length = 1 := by
    have := congrArg List.length happ
    rw [hblocks, List.length_append, List.length_dropLast] at this
    omega
  obtain ⟨x, hx⟩ := List.length_eq_one.mp hlen1
  have hxval : x = lastD (splitTB buf) ++ ext := splitTB_eq_singleton hx
  have hlast2 : lastD (splitTB (buf ++ ext)) = lastD (splitTB buf) ++ ext := by
    rw [happ, hx, lastD_append _ (by simp), hxval]
    rfl
  rw [parseLatestThinkBlock_eq buf, parseLatestThinkBlock_eq (buf ++ ext),
    hlast2]
  cases hm : titleMatchOf (lastD (splitTB buf)) with
  | some p =>
    obtain ⟨t0, r0⟩ := p
    rw [titleMatchOf_extend ext hm]
  | none =>
    cases hm2 : titleMatchOf (lastD (splitTB buf) ++ ext) with
    | some q =>
      have := hmarker (by rw [hlast2, hm2]; rfl)
      rw [hm] at this
      simp at this
    | none => rfl

/-- Witness for C7: growing a buffer whose single block already has a
completed `**T**` marker leaves the parsed heading unchanged. -/
theorem c7_parsers_pure_and_heading_stable_witness :
    (parseLatestThinkBlock ("**T**\nabcd".data)).1 =
      (parseLatestThinkBlock ("**T**\nab".data)).1 ∧
    (parseLatestThinkBlock ("**T**\nab".data)).1 = "T".data := by
  have h := c7_parsers_pure_and_heading_stable ("**T**\nab".data) ("cd".data)
    (by decide) (by decide) (by decide)
  exact ⟨h.2.2, rfl⟩

/-- C9 (amended): `parseLatestThinkBlock` splits the reasoning buffer into
blocks on the `\n\n(?=\*\*)` boundary pattern (joining the blocks back with
the removed two-newline delimiters recovers the buffer exactly), and returns
the last block's heading — the text of its shortest leading `**…**` marker —
together with the body: everything after the marker, trimmed.  If the last
block has no completed heading marker, the heading is empty and the body is
the whole last block, trimmed.  In particular a buffer without any heading
boundary is itself the last block, so — unlike in the original claim — its
heading is not necessarily empty (the buffer may itself begin with a
completed marker) and the returned body is trimmed rather than the whole
buffer verbatim. -/
theorem c9_last_block_heading_and_body (buf : List Char) (hne : buf ≠ []) :
    joinSep nnSep (splitTB buf) = buf ∧
    (∀ t rem, headingDecomp (lastD (splitTB buf)) t rem →
      parseLatestThinkBlock buf = (t, jsTrim rem)) ∧
    ((∀ t rem, ¬ headingDecomp (lastD (splitTB buf)) t rem) →
      parseLatestThinkBlock buf = ([], jsTrim (lastD (splitTB buf)))) := by
  refine ⟨splitTB_join buf, ?_, ?_⟩
  · intro t rem hd
    have hm := (titleMatchOf_iff_headingDecomp _ t rem).mpr hd
    rw [parseLatestThinkBlock_eq buf, hm]
    show (t, jsTrim (rem.dropWhile (fun c => c = '\n'))) = (t, jsTrim rem)
    rw [jsTrim_dropWhile_nl]
  · intro hnone
    cases hm : titleMatchOf (lastD (splitTB buf)) with
    | some p =>
      obtain ⟨t, rem⟩ := p
      exact absurd ((titleMatchOf_iff_headingDecomp _ t rem).mp hm)
        (hnone t rem)
    | none =>
      rw [parseLatestThinkBlock_eq buf, hm]

/-- Witness for C9: the block reconstruction property evaluated on a buffer
with two think blocks. -/
theorem c9_last_block_heading_and_body_witness :
    joinSep nnSep (splitTB ("**A**\nx\n\n**B**\ny".data)) =
      "**A**\nx\n\n**B**\ny".data :=
  (c9_last_block_heading_and_body ("**A**\nx\n\n**B**\ny".data) (by decide)).1

/-- Counterexample for C9 as stated: the buffer `**Title**\n\nBody` contains
no heading boundary (the splitter returns it as a single block, because the
`\n\n` is not followed by `**`), yet the returned heading is `Title`, not
the empty string, and the returned body is `Body`, not the whole buffer. -/
theorem c9_counterexample_no_boundary_nonempty_heading :
    splitTB ("**Title**\n\nBody".data) = ["**Title**\n\nBody".data] ∧
    (parseLatestThinkBlock ("**Title**\n\nBody".data)).1 = "Title".data ∧
    "Title".data ≠ ([] : List Char) ∧
    (parseLatestThinkBlock ("**Title**\n\nBody".data)).2 ≠
      "**Title**\n\nBody".data :=
  ⟨by decide, rfl, by decide, by decide⟩

/-- The page-level processing status (`ProcessingStatus` in `app/page.tsx`). -/
inductive PStatus where
  | idle | crawling | processing | done | error
deriving DecidableEq, Repr

/-- The audio sub-status (`AudioStatus` in `app/page.tsx`). -/
inductive AStatus where
  | idle | scripting | synthesizing | done | ready | error
deriving DecidableEq, Repr

/-- The failing stage recorded in `ErrorInfo` (`app/page.tsx`). -/
inductive Stage where
  | crawl | summarize | script
deriving DecidableEq, Repr

/-- The crawl response (`CrawlResponse` in `lib/api.ts`); the `metadata`
object is not read by any code under verification and is omitted. -/
structure CrawlResp where
  title : String
  cleaned_content : String
  preview_text : String
  url : String
  platform : String
  crawled_at : String
  original_content : String
deriving DecidableEq, Repr

/-- The per-track streaming state (`StreamingState` /
`ScriptStreamingState` in `app/page.tsx`). -/
structure StreamingStateL where
  isStreaming : Bool
  thinking : List Char
  content : List Char
  currentThinkingTitle : List Char
  currentThinkingContent : List Char
deriving DecidableEq, Repr

/-- The reset value both streaming states receive in `handleSubmit`. -/
def emptyStreaming : StreamingStateL :=
  ⟨false, [], [], [], []⟩

/-- The error surface (`ErrorInfo` in `app/page.tsx`); the message is the
raw value the stream handed to `onError`. -/
structure ErrorInfoL where
  stage : Stage
  message : Json

/-- The whole observable page state of `HomePage` (`app/page.tsx`): every
`useState` cell, plus the runtime bookkeeping the closures carry — the run
counter (one per `handleSubmit` call), which run's `AbortController`s the
two refs currently hold (both refs always hold controllers of the same run),
the per-run aborted flags, and the per-run `summaryDone` / `scriptDone`
closure variables read by `checkAllDone`. -/
structure PageState where
  status : PStatus
  error : Option ErrorInfoL
  crawlData : Option CrawlResp
  summaryData : Option Json
  scriptData : Option Json
  audioStatus : AStatus
  audioError : Option Json
  synthesizeData : Option Json
  audioUrl : Option String
  streaming : StreamingStateL
  scriptStreaming : StreamingStateL
  runCount : Nat
  curCtrl : Option Nat
  aborted : Nat → Bool
  sumFlag : Nat → Bool
  scrFlag : Nat → Bool

/-- The initial page state. -/
def initPage : PageState where
  status := .idle
  error := none
  crawlData := none
  summaryData := none
  scriptData := none
  audioStatus := .idle
  audioError := none
  synthesizeData := none
  audioUrl := none
  streaming := emptyStreaming
  scriptStreaming := emptyStreaming
  runCount := 0
  curCtrl := none
  aborted := fun _ => false
  sumFlag := fun _ => false
  scrFlag := fun _ => false

/-- Point update of a per-run flag map. -/
def setFn (f : Nat → Bool) (k : Nat) (v : Bool) : Nat → Bool :=
  fun n => if n = k then v else f n

/-- The asynchronous completions that can reach the page, tagged with the
run (the `handleSubmit` invocation) whose closures they were created by:
the submission itself, the crawl promise settling, a stream event delivered
by a track's `for await` loop, a stream exception reaching a track wrapper's
`catch`, and the `synthesizeAudio` promise settling. -/
inductive PEvent where
  | submit : String → PEvent
  | crawlOk : Nat → CrawlResp → PEvent
  | crawlErr : Nat → String → PEvent
  | sumEv : Nat → StreamEventL → PEvent
  | sumExc : Nat → String → PEvent
  | scrEv : Nat → StreamEventL → PEvent
  | scrExc : Nat → String → PEvent
  | ttsOk : Nat → Json → String → PEvent
  | ttsErr : Nat → String → PEvent

/-- Embedding of `checkAllDone` of run `r` (`app/page.tsx`): when both closure flags of
the run are set, the page status becomes `done`. -/
def checkAllDone (s : PageState) (r : Nat) : PageState :=
  if s.sumFlag r ∧ s.scrFlag r then { s with status := .done } else s

/-- The summary track's `onThinking` callback: append the delta, re-derive
the latest think block. -/
def applySumThinking (s : PageState) (t : Json) : PageState :=
  let newThinking := s.streaming.thinking ++ jsToStr t
  let pr := parseLatestThinkBlock newThinking
  { s with streaming := { s.streaming with
      thinking := newThinking
      currentThinkingTitle := pr.1
      currentThinkingContent := pr.2 } }

/-- The summary track's `onContent` callback. -/
def applySumContent (s : PageState) (t : Json) : PageState :=
  { s with streaming :=
    { s.streaming with content := s.streaming.content ++ jsToStr t } }

/-- The summary track's `onDone` callback: store the final payload as-is
(the source only type-casts it), stop streaming, set the closure flag,
re-check completion. -/
def applySumDone (s : PageState) (r : Nat) (j : Json) : PageState :=
  checkAllDone
    { s with
      summaryData := some j
      streaming := { s.streaming with isStreaming := false }
      sumFlag := setFn s.sumFlag r true } r

/-- The summary track's `onError` callback: record the summarize-stage
error, stop streaming, set the closure flag, re-check completion. -/
def applySumError (s : PageState) (r : Nat) (e : Json) : PageState :=
  checkAllDone
    { s with
      error := some ⟨.summarize, e⟩
      streaming := { s.streaming with isStreaming := false }
      sumFlag := setFn s.sumFlag r true } r

/-- The script track's `onThinking` callback. -/
def applyScrThinking (s : PageState) (t : Json) : PageState :=
  let newThinking := s.scriptStreaming.thinking ++ jsToStr t
  let pr := parseLatestThinkBlock newThinking
  { s with scriptStreaming := { s.scriptStreaming with
      thinking := newThinking
      currentThinkingTitle := pr.1
      currentThinkingContent := pr.2 } }

/-- The script track's `onContent` callback. -/
def applyScrContent (s : PageState) (t : Json) : PageState :=
  { s with scriptStreaming :=
    { s.scriptStreaming with content := s.scriptStreaming.content ++ jsToStr t } }

/-- The script track's `onDone` callback: store the script, stop streaming,
set the audio status to `done`, set the closure flag, re-check completion,
then switch the audio status to `synthesizing` and dispatch the TTS call
(whose settlement arrives later as a `ttsOk` / `ttsErr` event of the same
run). -/
def applyScrDone (s : PageState) (r : Nat) (j : Json) : PageState :=
  { checkAllDone
      { s with
        scriptData := some j
        scriptStreaming := { s.scriptStreaming with isStreaming := false }
        audioStatus := .done
        scrFlag := setFn s.scrFlag r true } r
    with audioStatus := .synthesizing }

/-- The script track's `onError` callback: record the error in the audio
surface, stop streaming, set the closure flag, re-check completion. -/
def applyScrError (s : PageState) (r : Nat) (e : Json) : PageState :=
  checkAllDone
    { s with
      audioError := some e
      scriptStreaming := { s.scriptStreaming with isStreaming := false }
      audioStatus := .error
      scrFlag := setFn s.scrFlag r true } r

/-- Event dispatch of the summary track's callback bundle. -/
def dispatchSum (s : PageState) (r : Nat) : StreamEventL → PageState
  | .thinking t => applySumThinking s t
  | .content t => applySumContent s t
  | .done j => applySumDone s r j
  | .error e => applySumError s r e

/-- Event dispatch of the script track's callback bundle. -/
def dispatchScr (s : PageState) (r : Nat) : StreamEventL → PageState
  | .thinking t => applyScrThinking s t
  | .content t => applyScrContent s t
  | .done j => applyScrDone s r j
  | .error e => applyScrError s r e

/-- One asynchronous completion applied to the page state, mirroring
`handleSubmit` and the two `…StreamWithCallbacks` wrappers (`app/page.tsx`,
`lib/api.ts`):

* `submit` synchronously aborts the controllers currently held by the two
  refs and resets every pipeline state cell, then awaits the crawl;
* `crawlOk r` is run `r`'s crawl continuation — it stores the document,
  enters processing, and installs run `r`'s two fresh `AbortController`s and
  closure flags (the source runs this continuation even for a superseded
  run);
* loop-delivered track events (`sumEv`/`scrEv`) are dropped when the run's
  controller is aborted (`if (controller.signal.aborted) break`);
* wrapper `catch` exceptions (`sumExc`/`scrExc`) invoke `onError` without
  any abort check;
* the TTS settlement (`ttsOk`/`ttsErr`) mutates the audio state without any
  abort or staleness check. -/
def pipeStep (s : PageState) : PEvent → PageState
  | .submit _url =>
    { s with
      aborted := match s.curCtrl with
        | some k => setFn s.aborted k true
        | none => s.aborted
      status := .crawling
      error := none
      crawlData := none
      summaryData := none
      scriptData := none
      audioStatus := .idle
      audioError := none
      synthesizeData := none
      audioUrl := none
      streaming := emptyStreaming
      scriptStreaming := emptyStreaming
      runCount := s.runCount + 1 }
  | .crawlOk r c =>
    { s with
      crawlData := some c
      status := .processing
      streaming := { s.streaming with isStreaming := true }
      audioStatus := .scripting
      scriptStreaming := { s.scriptStreaming with isStreaming := true }
      curCtrl := some r
      aborted := setFn s.aborted r false
      sumFlag := setFn s.sumFlag r false
      scrFlag := setFn s.scrFlag r false }
  | .crawlErr _r m =>
    { s with error := some ⟨.crawl, .str m⟩, status := .error }
  | .sumEv r ev => if s.aborted r then s else dispatchSum s r ev
  | .sumExc r m => applySumError s r (.str m)
  | .scrEv r ev => if s.aborted r then s else dispatchScr s r ev
  | .scrExc r m => applyScrError s r (.str m)
  | .ttsOk _r res aurl =>
    { s with
      synthesizeData := some res
      audioUrl := some aurl
      audioStatus := .ready }
  | .ttsErr _r m =>
    { s with audioError := some (.str m), audioStatus := .error }

/-- Execution of a finite trace of asynchronous completions from the initial
page state. -/
def runTrace (evs : List PEvent) : PageState :=
  evs.foldl pipeStep initPage

/-- A concrete crawl response used by the concrete-input theorems. -/
def cw : CrawlResp :=
  ⟨"t", "content", "preview", "u1", "geeknews", "now", "orig"⟩

/-- Modelled from the spec: the §3 `SummaryResult` structural invariant a
strict validation of a `complete` payload would check —
`points.length >= 1`.  (The source performs no such validation; this
definition exists to state that fact.) -/
def isValidSummaryJson (j : Json) : Bool :=
  match j.getField "points" with
  | some (.arr l) => decide (1 ≤ l.length)
  | _ => false

/-- Modelled from the spec: the §3 `Script` structural invariant —
`segments.length >= 1` and every segment non-empty. -/
def isValidScriptJson (j : Json) : Bool :=
  match j.getField "segments" with
  | some (.arr l) =>
    decide (1 ≤ l.length) &&
      l.all (fun seg => match seg with | .str s => decide (s ≠ "") | _ => false)
  | _ => false

/-- C1 (code bug): after a second submission supersedes a run whose TTS
synthesis call is still in flight, the superseded run's synthesis settlement
still mutates observable audio state.  Trace: submit URL1; the crawl
resolves; the script track completes (which starts the TTS call); submit
URL2 — this aborts both generation-track controllers and resets all pipeline
state (and a subsequently delivered track event of run 1 is indeed a no-op);
but when run 1's TTS promise then settles, `synthesizeData`, `audioUrl` and
`audioStatus` change from their reset values to run 1's result — an
observable state change attributable to the first run after the second
submission, which the claim forbids. -/
theorem c1_superseded_tts_settlement_mutates_state :
    (runTrace [.submit "u1", .crawlOk 1 cw, .scrEv 1 (.done (Json.obj [])),
        .submit "u2"]).audioStatus = AStatus.idle ∧
    (runTrace [.submit "u1", .crawlOk 1 cw, .scrEv 1 (.done (Json.obj [])),
        .submit "u2"]).synthesizeData = none ∧
    (runTrace [.submit "u1", .crawlOk 1 cw, .scrEv 1 (.done (Json.obj [])),
        .submit "u2"]).audioUrl = none ∧
    (runTrace [.submit "u1", .crawlOk 1 cw, .scrEv 1 (.done (Json.obj [])),
        .submit "u2"]).runCount = 2 ∧
    runTrace [.submit "u1", .crawlOk 1 cw, .scrEv 1 (.done (Json.obj [])),
        .submit "u2", .sumEv 1 (.done (Json.obj []))] =
      runTrace [.submit "u1", .crawlOk 1 cw, .scrEv 1 (.done (Json.obj [])),
        .submit "u2"] ∧
    (runTrace [.submit "u1", .crawlOk 1 cw, .scrEv 1 (.done (Json.obj [])),
        .submit "u2", .ttsOk 1 (Json.obj []) "audio1"]).audioStatus =
      AStatus.ready ∧
    (runTrace [.submit "u1", .crawlOk 1 cw, .scrEv 1 (.done (Json.obj [])),
        .submit "u2", .ttsOk 1 (Json.obj []) "audio1"]).synthesizeData =
      some (Json.obj []) ∧
    (runTrace [.submit "u1", .crawlOk 1 cw, .scrEv 1 (.done (Json.obj [])),
        .submit "u2", .ttsOk 1 (Json.obj []) "audio1"]).audioUrl =
      some "audio1" :=
  ⟨rfl, rfl, rfl, rfl, rfl, rfl, rfl, rfl⟩

/-- The four callback invocations a stream wrapper can make
(`SummarizeStreamCallbacks` / `ScriptStreamCallbacks` in `lib/api.ts`). -/
inductive CbInv where
  | onThinking : Json → CbInv
  | onContent : Json → CbInv
  | onDone : Json → CbInv
  | onError : Json → CbInv

/-- The `switch` dispatch of the wrapper loop body. -/
def dispatchEvent : StreamEventL → CbInv
  | .thinking t => .onThinking t
  | .content t => .onContent t
  | .done j => .onDone j
  | .error e => .onError e

/-- Embedding of the async body of `summarizeStreamWithCallbacks` /
`generateScriptStreamWithCallbacks` (`lib/api.ts`): the `for await` loop
checks `controller.signal.aborted` before dispatching each event and breaks
at the first event seen after the abort, so exactly the events delivered
before the abort (`abortAfter` many) invoke callbacks; an exception raised
by the underlying stream reaches the `catch` block, which invokes `onError`
with the message — with no abort check. -/
def streamCallbacksRun (evs : List StreamEventL) (abortAfter : Nat)
    (exc : Option String) : List CbInv :=
  (evs.take abortAfter).map dispatchEvent ++
    (match exc with
     | some m => [CbInv.onError (Json.str m)]
     | none => [])

/-- C2 (code bug): after the `AbortController` returned by the wrapper is
aborted, every event delivered by the stream loop is a no-op — but an error
raised by the underlying stream after the abort is not: the wrapper's
`catch` invokes `onError` without checking `controller.signal.aborted`, so
cancellation does not silence `onError`, contrary to the claim. -/
theorem c2_post_abort_stream_exception_invokes_onError :
    (∀ evs : List StreamEventL, streamCallbacksRun evs 0 none = []) ∧
    streamCallbacksRun [] 0 (some "network failure") =
      [CbInv.onError (Json.str "network failure")] ∧
    streamCallbacksRun [] 0 (some "network failure") ≠ [] :=
  ⟨fun evs => by simp [streamCallbacksRun],
   rfl,
   by simp [streamCallbacksRun]⟩

/-- C4 (amended): on a `complete` event the final payload is only
JSON-decoded, never structurally validated: even when the §3 invariants fail
for the payload, the track stores it and is treated as done — the summary
track sets `summaryData` and reports no error, and the script track sets
`scriptData` and proceeds to synthesis — rather than transitioning to
failed.  (Only a payload that fails JSON decoding is dropped, in which case
no `done` event is produced at all.) -/
theorem c4_done_payload_not_validated (s : PageState) (r : Nat) (j : Json)
    (hab : s.aborted r = false) (hinv : isValidSummaryJson j = false)
    (hinv2 : isValidScriptJson j = false) :
    (pipeStep s (.sumEv r (.done j))).summaryData = some j ∧
    (pipeStep s (.sumEv r (.done j))).error = s.error ∧
    (pipeStep s (.scrEv r (.done j))).scriptData = some j ∧
    (pipeStep s (.scrEv r (.done j))).audioStatus = AStatus.synthesizing ∧
    (pipeStep s (.scrEv r (.done j))).audioError = s.audioError := by
  refine ⟨?_, ?_, ?_, ?_, ?_⟩ <;>
    simp only [pipeStep, hab, if_false, Bool.false_eq_true, dispatchSum,
      dispatchScr, applySumDone, applyScrDone, checkAllDone] <;>
    split <;> rfl

/-- Witness for C4: the empty JSON object violates both §3 invariants, yet a
`done` event carrying it marks the summary track done. -/
theorem c4_done_payload_not_validated_witness :
    isValidSummaryJson (Json.obj []) = false ∧
    (pipeStep initPage (.sumEv 0 (.done (Json.obj [])))).summaryData =
      some (Json.obj []) :=
  ⟨rfl, (c4_done_payload_not_validated initPage 0 (Json.obj []) rfl rfl rfl).1⟩

/-- Counterexample for C4 as stated: after a crawl, a `done` event whose
payload is the empty JSON object — which fails the §3 `SummaryResult`
invariant — leaves the track done (`summaryData` set, no error recorded,
status not `error`) instead of transitioning it to failed. -/
theorem c4_counterexample_invalid_payload_accepted_as_done :
    isValidSummaryJson (Json.obj []) = false ∧
    (pipeStep (runTrace [.submit "u", .crawlOk 1 cw])
      (.sumEv 1 (.done (Json.obj [])))).summaryData = some (Json.obj []) ∧
    (pipeStep (runTrace [.submit "u", .crawlOk 1 cw])
      (.sumEv 1 (.done (Json.obj [])))).error = none ∧
    (pipeStep (runTrace [.submit "u", .crawlOk 1 cw])
      (.sumEv 1 (.done (Json.obj [])))).status ≠ PStatus.error :=
  ⟨rfl, rfl, rfl, by decide⟩

/-- C6: failures leave already-successful sibling results untouched.  A
summary-track error event mutates only the summary error/streaming surface —
crawl data, script data, summary data, every audio cell and the script
streaming state are unchanged; a TTS synthesis rejection mutates only the
audio error surface — the script result, summary result, crawl data, the
page error and both streaming states are unchanged (and the script result
remains present and displayable). -/
theorem c6_failures_leave_siblings_unchanged (s : PageState) (r : Nat)
    (e : Json) (m : String) :
    ((pipeStep s (.sumEv r (.error e))).crawlData = s.crawlData ∧
     (pipeStep s (.sumEv r (.error e))).scriptData = s.scriptData ∧
     (pipeStep s (.sumEv r (.error e))).summaryData = s.summaryData ∧
     (pipeStep s (.sumEv r (.error e))).audioStatus = s.audioStatus ∧
     (pipeStep s (.sumEv r (.error e))).audioError = s.audioError ∧
     (pipeStep s (.sumEv r (.error e))).synthesizeData = s.synthesizeData ∧
     (pipeStep s (.sumEv r (.error e))).audioUrl = s.audioUrl ∧
     (pipeStep s (.sumEv r (.error e))).scriptStreaming = s.scriptStreaming) ∧
    ((pipeStep s (.ttsErr r m)).scriptData = s.scriptData ∧
     (pipeStep s (.ttsErr r m)).summaryData = s.summaryData ∧
     (pipeStep s (.ttsErr r m)).crawlData = s.crawlData ∧
     (pipeStep s (.ttsErr r m)).error = s.error ∧
     (pipeStep s (.ttsErr r m)).status = s.status ∧
     (pipeStep s (.ttsErr r m)).synthesizeData = s.synthesizeData ∧
     (pipeStep s (.ttsErr r m)).audioUrl = s.audioUrl ∧
     (pipeStep s (.ttsErr r m)).streaming = s.streaming ∧
     (pipeStep s (.ttsErr r m)).scriptStreaming = s.scriptStreaming) := by
  constructor
  · refine ⟨?_, ?_, ?_, ?_, ?_, ?_, ?_, ?_⟩ <;>
      simp only [pipeStep, dispatchSum, applySumError, checkAllDone] <;>
      split <;> (try split) <;> rfl
  · exact ⟨rfl, rfl, rfl, rfl, rfl, rfl, rfl, rfl, rfl⟩

/-- Modelled from the spec: the backend `_merge_audio_chunks(chunks,
silence_ms)` of `AudioService` — the implementation is not under `src/`
(the repository carries only its signature in the TTS planning document) —
per §4.4 step 3: concatenate the segment audio buffers in order, inserting
the fixed silence block between consecutive segments and nowhere else. -/
def mergeAudioChunks (silence : List Nat) : List (List Nat) → List Nat
  | [] => []
  | [c] => c
  | c :: d :: t => c ++ silence ++ mergeAudioChunks silence (d :: t)

/-- Modelled from the spec: §4.4 steps 1–2 — one synthesis call per segment,
dispatched concurrently; completions arrive in an arbitrary order and each
stores its audio in the slot of its segment index. -/
def fillSlots (res : Nat → List Nat) (order : List Nat)
    (slots : Nat → Option (List Nat)) : Nat → Option (List Nat) :=
  order.foldl (fun sl i => fun n => if n = i then some (res i) else sl n) slots

/-- Modelled from the spec: the merged artifact assembled after every
segment call has settled — the slots are read back in original segment
order, never in completion order, and merged with the silence padding. -/
def synthesizeMerged (n : Nat) (res : Nat → List Nat) (order : List Nat)
    (silence : List Nat) : List Nat :=
  mergeAudioChunks silence
    ((List.range n).map (fun i => (fillSlots res order (fun _ => none) i).getD []))

theorem fillSlots_not_mem (res : Nat → List Nat) :
    ∀ (order : List Nat) (slots : Nat → Option (List Nat)) (i : Nat),
      i ∉ order → fillSlots res order slots i = slots i
  | [], _, _, _ => rfl
  | j :: ord', slots, i, h => by
    have hij : i ≠ j := fun hc => h (hc ▸ List.mem_cons_self j ord')
    have hni : i ∉ ord' := fun hc => h (List.mem_cons_of_mem j hc)
    show fillSlots res ord' _ i = slots i
    rw [fillSlots_not_mem res ord' _ i hni]
    simp [hij]

theorem fillSlots_mem (res : Nat → List Nat) :
    ∀ (order : List Nat) (slots : Nat → Option (List Nat)) (i : Nat),
      i ∈ order → fillSlots res order slots i = some (res i)
  | [], _, _, h => absurd h (by simp)
  | j :: ord', slots, i, h => by
    by_cases hio : i ∈ ord'
    · exact fillSlots_mem res ord' _ i hio
    · have hij : i = j := by
        rcases List.mem_cons.mp h with h' | h'
        · exact h'
        · exact absurd h' hio
      show fillSlots res ord' _ i = some (res i)
      rw [fillSlots_not_mem res ord' _ i hio]
      simp [hij]

theorem mergeAudioChunks_eq_intercalate (silence : List Nat) :
    ∀ l : List (List Nat),
      mergeAudioChunks silence l = List.intercalate silence l
  | [] => by simp [mergeAudioChunks, List.intercalate]
  | [c] => by simp [mergeAudioChunks, List.intercalate]
  | c :: d :: t => by
    rw [mergeAudioChunks, mergeAudioChunks_eq_intercalate silence (d :: t)]
    simp [List.intercalate, List.flatten_cons, List.append_assoc]

/-- C5: when all `n` segments synthesize successfully — in whatever
completion order — the merged artifact equals the segment buffers
concatenated strictly in original segment order with exactly one silence
block between consecutive segments and none before the first or after the
last (`List.intercalate`); in particular for three segments the artifact is
`s0 ++ silence ++ s1 ++ silence ++ s2` regardless of completion order. -/
theorem c5_merge_in_segment_order_with_silence (n : Nat)
    (res : Nat → List Nat) (order : List Nat) (silence : List Nat)
    (hall : ∀ i ∈ List.range n, i ∈ order) :
    synthesizeMerged n res order silence =
      List.intercalate silence ((List.range n).map res) ∧
    (∀ a b c : List Nat, mergeAudioChunks silence [a, b, c] =
      a ++ silence ++ b ++ silence ++ c) := by
  constructor
  · unfold synthesizeMerged
    rw [mergeAudioChunks_eq_intercalate]
    congr 1
    apply List.map_congr_left
    intro i hi
    rw [fillSlots_mem res order _ i (hall i hi)]
    rfl
  · intro a b c
    simp [mergeAudioChunks, List.append_assoc]

/-- Witness for C5: three segments completing in the order 2, 0, 1 still
merge as segment 0, silence, segment 1, silence, segment 2. -/
theorem c5_merge_in_segment_order_with_silence_witness :
    synthesizeMerged 3 (fun i => [i * 10]) [2, 0, 1] [9, 9] =
      [0, 9, 9, 10, 9, 9, 20] := by
  have h := c5_merge_in_segment_order_with_silence 3 (fun i => [i * 10])
    [2, 0, 1] [9, 9] (by decide)
  exact h.1.trans (by rfl)

/-- The parsed-URL surface `extractArticleId` reads: the pathname and the
`id` query parameter.  A parser function stands in for the browser builtin
`new URL(url)` / `searchParams`; `none` models the constructor throwing. -/
structure UrlParts where
  pathname : String
  queryId : Option String

/-- Stand-in type for the external WHATWG URL parser. -/
abbrev UrlParse := String → Option UrlParts

/-- The character class `[a-f0-9]` of the medium slug-hash pattern. -/
def isHexLower (c : Char) : Bool :=
  ('a' ≤ c ∧ c ≤ 'f') ∨ ('0' ≤ c ∧ c ≤ '9')

/-- Embedding of the `slug.replace` call that deletes a trailing
`-[a-f0-9]{10,}` suffix anchored at the end of the slug: the only possible
match removes the maximal trailing hex run (of length at least ten) together
with the `-` immediately before it. -/
def stripTrailHash (slug : List Char) : List Char :=
  let r := slug.reverse.takeWhile isHexLower
  if 10 ≤ r.length ∧ (slug.reverse.drop r.length).head? = some '-' then
    (slug.reverse.drop (r.length + 1)).reverse
  else slug

/-- Split a pathname on `/` (JS `pathname.split("/")`). -/
def splitSlash : List Char → List (List Char)
  | [] => [[]]
  | c :: rest =>
    if c = '/' then [] :: splitSlash rest
    else mapHd (fun h => c :: h) (splitSlash rest)

/-- UTF-16 code units of a string, as JS `charCodeAt` enumerates them
(astral code points become surrogate pairs). -/
def utf16Units (l : List Char) : List Nat :=
  l.flatMap (fun c =>
    let n := c.toNat
    if n < 65536 then [n]
    else [55296 + (n - 65536) / 1024, 56320 + (n - 65536) % 1024])

/-- Wrap an integer to JS 32-bit two's-complement (`| 0` / `& -1`). -/
def toInt32 (x : Int) : Int :=
  (x + 2147483648) % 4294967296 - 2147483648

/-- Embedding of the `hashCode` helper (`lib/api.ts`): the classic
`hash = (hash << 5) - hash + char; hash = hash & hash` loop over the UTF-16
code units, with JS 32-bit wrapping. -/
def hashCode (url : String) : Int :=
  (utf16Units url.data).foldl
    (fun h c => toInt32 (toInt32 (h * 32) - h + (c : Int))) 0

/-- The hash fallback identifier `article_` + `Math.abs(hashCode(url)) %
100000000`. -/
def fallbackArticleId (url : String) : List Char :=
  "article_".data ++ (toString ((hashCode url).natAbs % 100000000)).data

/-- Embedding of `extractArticleId` (`lib/api.ts`): platform-specific id
extraction inside a `try` around `new URL`, falling through to the hash
fallback whenever parsing fails or no platform id is found. -/
def extractArticleId (urlParse : UrlParse) (url platform : String) :
    List Char :=
  match urlParse url with
  | some parts =>
    if platform = "geeknews" then
      match parts.queryId with
      | some tid =>
        if tid ≠ "" then "topic_".data ++ tid.data else fallbackArticleId url
      | none => fallbackArticleId url
    else if platform = "medium" then
      let pathParts := (splitSlash parts.pathname.data).filter (fun p => p ≠ [])
      match pathParts.getLast? with
      | some slug =>
        let slugClean := stripTrailHash slug
        if slugClean ≠ [] then slugClean.take 50 else fallbackArticleId url
      | none => fallbackArticleId url
    else fallbackArticleId url
  | none => fallbackArticleId url

theorem fallbackArticleId_ne_nil (url : String) :
    fallbackArticleId url ≠ [] := by
  unfold fallbackArticleId
  simp

/-- C10: `extractArticleId` is total and deterministic: whatever the URL
parser does and whatever the url and platform strings are, it returns a
non-empty identifier; when the URL fails to parse, or the platform is
neither `geeknews` nor `medium`, the result is exactly the `article_` +
`|hashCode(url)| % 100000000` fallback; and equal inputs always produce
equal identifiers. -/
theorem c10_extractArticleId_total_deterministic (urlParse : UrlParse)
    (url platform : String) :
    extractArticleId urlParse url platform ≠ [] ∧
    (urlParse url = none →
      extractArticleId urlParse url platform = fallbackArticleId url) ∧
    (platform ≠ "geeknews" → platform ≠ "medium" →
      extractArticleId urlParse url platform = fallbackArticleId url) ∧
    (∀ (urlParse2 : UrlParse) (url2 platform2 : String),
      urlParse2 = urlParse → url2 = url → platform2 = platform →
      extractArticleId urlParse2 url2 platform2 =
        extractArticleId urlParse url platform) := by
  refine ⟨?_, ?_, ?_, ?_⟩
  · simp only [extractArticleId]
    repeat' split
    all_goals first
      | exact fallbackArticleId_ne_nil url
      | simp_all [List.take_eq_nil_iff]
      | simp
  · intro h
    unfold extractArticleId
    rw [h]
  · intro hg hm
    unfold extractArticleId
    cases urlParse url with
    | none => rfl
    | some parts => simp [hg, hm]
  · intro up2 u2 p2 h1 h2 h3
    rw [h1, h2, h3]

/-- Witness for C10: an unparseable URL falls back to the hash identifier,
which is non-empty. -/
theorem c10_extractArticleId_total_deterministic_witness :
    extractArticleId (fun _ => none) "not a url" "geeknews" =
      fallbackArticleId "not a url" ∧
    extractArticleId (fun _ => none) "not a url" "geeknews" ≠ [] :=
  ⟨(c10_extractArticleId_total_deterministic (fun _ => none) "not a url"
      "geeknews").2.1 rfl,
   (c10_extractArticleId_total_deterministic (fun _ => none) "not a url"
      "geeknews").1⟩

end ReadForMe
